import Mathlib

/-!
Verification of the project state synchronization engine of the inlang SDK
(`loadProject` and its helpers), embedded shallowly in Lean.

The embedding follows `loadProject.ts` (settings loading and validation, the
message-file watcher loop, tracked-message persistence, and the
one-time import reconciliation).  External collaborators not part of the
core (the message codec, the path helpers, the human-id hash, the JSON
parser, the message store) are modelled from the spec's contracts, as
concrete executable functions; each such definition is marked
`Modelled from the spec:` in its doc comment.
-/

namespace InlangSync

/-! ### The message codec (external collaborator)

Modelled from the spec: the codec converts between a message's structured
form and its on-disk textual representation (`parseMessage`,
`encodeMessage`), with the round-trip `parseMessage (encodeMessage m) = m`.
We realise it as a canonical, self-delimiting escape encoding: strings are
escaped (`\` before `\` and `;`) and terminated by `;`, lists are tagged by
`c`/`n`.  The decoder accepts exactly the canonical image of the encoder,
which gives both round-trip directions. -/

/-- Escape `\` and `;` inside a raw character list. -/
def escapeL : List Char → List Char
  | [] => []
  | c :: cs =>
    if c = '\\' ∨ c = ';' then '\\' :: c :: escapeL cs else c :: escapeL cs

/-- Read an escaped character list up to its terminating unescaped `;`.
Returns the unescaped content and the remaining input. -/
def unescapeL : List Char → Option (List Char × List Char)
  | [] => none
  | c :: rest =>
    if c = '\\' then
      match rest with
      | [] => none
      | d :: rest2 =>
        if d = '\\' ∨ d = ';' then
          match unescapeL rest2 with
          | none => none
          | some (s, r) => some (d :: s, r)
        else none
    else if c = ';' then some ([], rest)
    else
      match unescapeL rest with
      | none => none
      | some (s, r) => some (c :: s, r)

theorem unescapeL_semi (rest : List Char) : unescapeL (';' :: rest) = some ([], rest) := by
  unfold unescapeL
  simp

theorem unescapeL_esc (d : Char) (rest2 : List Char) (hd : d = '\\' ∨ d = ';') :
    unescapeL ('\\' :: d :: rest2) =
      match unescapeL rest2 with
      | none => none
      | some (s, r) => some (d :: s, r) := by
  conv_lhs => unfold unescapeL
  simp [hd]

theorem unescapeL_plain (c : Char) (rest : List Char) (h1 : c ≠ '\\') (h2 : c ≠ ';') :
    unescapeL (c :: rest) =
      match unescapeL rest with
      | none => none
      | some (s, r) => some (c :: s, r) := by
  conv_lhs => unfold unescapeL
  simp [h1, h2]

theorem unescapeL_escapeL (s : List Char) :
    ∀ r, unescapeL (escapeL s ++ ';' :: r) = some (s, r) := by
  induction s with
  | nil =>
    intro r
    simpa [escapeL] using unescapeL_semi r
  | cons c cs ih =>
    intro r
    by_cases hc : c = '\\' ∨ c = ';'
    · rw [show escapeL (c :: cs) = '\\' :: c :: escapeL cs from by simp [escapeL, hc]]
      rw [List.cons_append, List.cons_append, unescapeL_esc c (escapeL cs ++ ';' :: r) hc,
        ih r]
    · have hc1 : c ≠ '\\' := fun h => hc (Or.inl h)
      have hc2 : c ≠ ';' := fun h => hc (Or.inr h)
      rw [show escapeL (c :: cs) = c :: escapeL cs from by simp [escapeL, hc]]
      rw [List.cons_append, unescapeL_plain c (escapeL cs ++ ';' :: r) hc1 hc2, ih r]

theorem unescapeL_canon :
    ∀ l s r, unescapeL l = some (s, r) → l = escapeL s ++ ';' :: r := by
  intro l
  induction l using unescapeL.induct with
  | case1 =>
    intro s r h
    simp [unescapeL] at h
  | case2 =>
    intro s r h
    rw [show unescapeL ['\\'] = none from by unfold unescapeL; simp] at h
    exact absurd h (by simp)
  | case3 d rest2 hd hnone _ih =>
    intro s r h
    rw [unescapeL_esc d rest2 hd, hnone] at h
    exact absurd h (by simp)
  | case4 d rest2 hd s0 r0 hsome ih =>
    intro s r h
    rw [unescapeL_esc d rest2 hd, hsome] at h
    simp only [Option.some.injEq, Prod.mk.injEq] at h
    obtain ⟨hs, hr⟩ := h
    rw [← hs, ← hr]
    rw [show escapeL (d :: s0) = '\\' :: d :: escapeL s0 from by simp [escapeL, hd]]
    rw [List.cons_append, List.cons_append]
    rw [← ih s0 r0 hsome]
  | case5 d rest2 hd =>
    intro s r h
    rw [show unescapeL ('\\' :: d :: rest2) = none from by
      conv_lhs => unfold unescapeL
      simp [hd]] at h
    exact absurd h (by simp)
  | case6 rest2 _h =>
    intro s r h
    rw [unescapeL_semi rest2] at h
    simp only [Option.some.injEq, Prod.mk.injEq] at h
    obtain ⟨hs, hr⟩ := h
    subst hs hr
    simp [escapeL]
  | case7 d rest2 h1 h2 hnone _ih =>
    intro s r h
    rw [unescapeL_plain d rest2 h1 h2, hnone] at h
    exact absurd h (by simp)
  | case8 d rest2 h1 h2 s0 r0 hsome ih =>
    intro s r h
    rw [unescapeL_plain d rest2 h1 h2, hsome] at h
    simp only [Option.some.injEq, Prod.mk.injEq] at h
    obtain ⟨hs, hr⟩ := h
    rw [← hs, ← hr]
    rw [show escapeL (d :: s0) = d :: escapeL s0 from by simp [escapeL, h1, h2]]
    rw [List.cons_append, ← ih s0 r0 hsome]

/-- Decoded strings strictly consume input (at least the terminating `;`). -/
theorem unescapeL_length {l s r : List Char} (h : unescapeL l = some (s, r)) :
    r.length < l.length := by
  have := unescapeL_canon l s r h
  subst this
  simp
  omega

/-- A decoded string together with the remaining input. -/
def decStrL (l : List Char) : Option (String × List Char) :=
  match unescapeL l with
  | none => none
  | some (s, r) => some (String.mk s, r)

/-- Canonical encoding of a string: escaped content plus terminator. -/
def encStrL (s : String) : List Char := escapeL s.data ++ [';']

theorem decStrL_enc (s : String) (r : List Char) :
    decStrL (encStrL s ++ r) = some (s, r) := by
  have : encStrL s ++ r = escapeL s.data ++ ';' :: r := by
    simp [encStrL]
  rw [this, decStrL, unescapeL_escapeL]

theorem decStrL_canon {l : List Char} {s : String} {r : List Char}
    (h : decStrL l = some (s, r)) : l = encStrL s ++ r := by
  rw [decStrL] at h
  cases hu : unescapeL l with
  | none => rw [hu] at h; exact absurd h (by simp)
  | some p =>
    obtain ⟨s0, r0⟩ := p
    rw [hu] at h
    simp only [Option.some.injEq, Prod.mk.injEq] at h
    obtain ⟨hs, hr⟩ := h
    have := unescapeL_canon l s0 r0 hu
    subst this
    rw [← hs, ← hr]
    simp [encStrL]

theorem decStrL_length {l : List Char} {s : String} {r : List Char}
    (h : decStrL l = some (s, r)) : r.length < l.length := by
  rw [decStrL] at h
  cases hu : unescapeL l with
  | none => rw [hu] at h; exact absurd h (by simp)
  | some p =>
    obtain ⟨s0, r0⟩ := p
    rw [hu] at h
    simp only [Option.some.injEq, Prod.mk.injEq] at h
    obtain ⟨_, hr⟩ := h
    rw [← hr]
    exact unescapeL_length hu

/-- One (languageTag, pattern) pair of a message.  The pattern is modelled as
its raw text (the claims under verification do not inspect pattern
structure). -/
structure Variant where
  languageTag : String
  pattern : String
deriving DecidableEq, Repr

/-- A localizable message: the data model of `versionedInterfaces.ts`.
The source field `alias` (a keyword in Lean) is called `aliases` here:
a mapping from module id to that module's own identifier for the message. -/
structure Message where
  id : String
  aliases : List (String × String)
  variants : List Variant
deriving DecidableEq, Repr

def encPairL (p : String × String) : List Char := encStrL p.1 ++ encStrL p.2

def decPairL (l : List Char) : Option ((String × String) × List Char) :=
  match decStrL l with
  | none => none
  | some (a, l1) =>
    match decStrL l1 with
    | none => none
    | some (b, l2) => some ((a, b), l2)

def encVariantL (v : Variant) : List Char := encStrL v.languageTag ++ encStrL v.pattern

def decVariantL (l : List Char) : Option (Variant × List Char) :=
  match decStrL l with
  | none => none
  | some (a, l1) =>
    match decStrL l1 with
    | none => none
    | some (b, l2) => some (⟨a, b⟩, l2)

/-- Tagged encoding of a list: `c` for cons, `n` for nil. -/
def encListBy (f : α → List Char) : List α → List Char
  | [] => ['n']
  | a :: as => 'c' :: (f a ++ encListBy f as)

/-- Fueled decoder for `encListBy`-encoded lists, generic in the element
decoder. -/
def decListBy (g : List Char → Option (α × List Char)) : Nat → List Char → Option (List α × List Char)
  | 0, _ => none
  | _ + 1, [] => none
  | fuel + 1, c :: rest =>
    if c = 'c' then
      match g rest with
      | none => none
      | some (a, r1) =>
        match decListBy g fuel r1 with
        | none => none
        | some (as, r2) => some (a :: as, r2)
    else if c = 'n' then some ([], rest)
    else none

theorem decPairL_enc (p : String × String) (r : List Char) :
    decPairL (encPairL p ++ r) = some (p, r) := by
  rw [encPairL, List.append_assoc]
  simp [decPairL, decStrL_enc]

theorem decPairL_canon {l : List Char} {p : String × String} {r : List Char}
    (h : decPairL l = some (p, r)) : l = encPairL p ++ r := by
  cases h1 : decStrL l with
  | none => simp [decPairL, h1] at h
  | some q1 =>
    obtain ⟨a, l1⟩ := q1
    cases h2 : decStrL l1 with
    | none => simp [decPairL, h1, h2] at h
    | some q2 =>
      obtain ⟨b, l2⟩ := q2
      simp only [decPairL, h1, h2, Option.some.injEq, Prod.mk.injEq] at h
      obtain ⟨hp, hr⟩ := h
      rw [← hp, ← hr]
      rw [decStrL_canon h1, decStrL_canon h2, encPairL, List.append_assoc]

theorem decPairL_length {l : List Char} {p : String × String} {r : List Char}
    (h : decPairL l = some (p, r)) : r.length < l.length := by
  have := decPairL_canon h
  subst this
  simp [encPairL, encStrL]
  omega

theorem decVariantL_enc (v : Variant) (r : List Char) :
    decVariantL (encVariantL v ++ r) = some (v, r) := by
  rw [encVariantL, List.append_assoc]
  simp [decVariantL, decStrL_enc]

theorem decVariantL_canon {l : List Char} {v : Variant} {r : List Char}
    (h : decVariantL l = some (v, r)) : l = encVariantL v ++ r := by
  cases h1 : decStrL l with
  | none => simp [decVariantL, h1] at h
  | some q1 =>
    obtain ⟨a, l1⟩ := q1
    cases h2 : decStrL l1 with
    | none => simp [decVariantL, h1, h2] at h
    | some q2 =>
      obtain ⟨b, l2⟩ := q2
      simp only [decVariantL, h1, h2, Option.some.injEq, Prod.mk.injEq] at h
      obtain ⟨hp, hr⟩ := h
      rw [← hr, ← hp]
      rw [decStrL_canon h1, decStrL_canon h2, encVariantL, List.append_assoc]

theorem decVariantL_length {l : List Char} {v : Variant} {r : List Char}
    (h : decVariantL l = some (v, r)) : r.length < l.length := by
  have := decVariantL_canon h
  subst this
  simp [encVariantL, encStrL]
  omega

theorem decListBy_cons_c (g : List Char → Option (α × List Char)) (fuel : Nat) (rest : List Char) :
    decListBy g (fuel + 1) ('c' :: rest) =
      match g rest with
      | none => none
      | some (a, r1) =>
        match decListBy g fuel r1 with
        | none => none
        | some (as, r2) => some (a :: as, r2) := by
  simp [decListBy]

theorem decListBy_cons_n (g : List Char → Option (α × List Char)) (fuel : Nat) (rest : List Char) :
    decListBy g (fuel + 1) ('n' :: rest) = some ([], rest) := by
  simp [decListBy]

theorem decListBy_enc (f : α → List Char) (g : List Char → Option (α × List Char))
    (hg : ∀ a r, g (f a ++ r) = some (a, r)) :
    ∀ (as : List α) (r : List Char) (fuel : Nat), as.length < fuel →
      decListBy g fuel (encListBy f as ++ r) = some (as, r) := by
  intro as
  induction as with
  | nil =>
    intro r fuel hfuel
    obtain ⟨fuel, rfl⟩ : ∃ k, fuel = k + 1 := ⟨fuel - 1, by omega⟩
    simpa [encListBy] using decListBy_cons_n g fuel r
  | cons a as ih =>
    intro r fuel hfuel
    obtain ⟨fuel, rfl⟩ : ∃ k, fuel = k + 1 := ⟨fuel - 1, by omega⟩
    have hlen : as.length < fuel := by
      simp at hfuel
      omega
    rw [show encListBy f (a :: as) ++ r = 'c' :: (f a ++ (encListBy f as ++ r)) from by
      simp [encListBy]]
    rw [decListBy_cons_c]
    simp only [hg a (encListBy f as ++ r), ih r fuel hlen]

theorem decListBy_canon (f : α → List Char) (g : List Char → Option (α × List Char))
    (hgc : ∀ l a r, g l = some (a, r) → l = f a ++ r) :
    ∀ (fuel : Nat) (l : List Char) (as : List α) (r : List Char),
      decListBy g fuel l = some (as, r) → l = encListBy f as ++ r := by
  intro fuel
  induction fuel with
  | zero =>
    intro l as r h
    simp [decListBy] at h
  | succ fuel ih =>
    intro l as r h
    match l with
    | [] => simp [decListBy] at h
    | c :: rest =>
      by_cases hc : c = 'c'
      · subst hc
        rw [decListBy_cons_c] at h
        cases h1 : g rest with
        | none => simp [h1] at h
        | some q1 =>
          obtain ⟨a, r1⟩ := q1
          cases h2 : decListBy g fuel r1 with
          | none => simp [h1, h2] at h
          | some q2 =>
            obtain ⟨as2, r2⟩ := q2
            simp only [h1, h2, Option.some.injEq, Prod.mk.injEq] at h
            obtain ⟨has, hr⟩ := h
            rw [← has, ← hr]
            rw [show encListBy f (a :: as2) ++ r2 = 'c' :: (f a ++ (encListBy f as2 ++ r2)) from by
              simp [encListBy]]
            rw [← ih r1 as2 r2 h2, ← hgc rest a r1 h1]
      · by_cases hn : c = 'n'
        · subst hn
          rw [decListBy_cons_n] at h
          simp only [Option.some.injEq, Prod.mk.injEq] at h
          obtain ⟨has, hr⟩ := h
          rw [← has, ← hr]
          simp [encListBy]
        · rw [show decListBy g (fuel + 1) (c :: rest) = none from by
            simp [decListBy, hc, hn]] at h
          exact absurd h (by simp)

theorem encListBy_length (f : α → List Char) (as : List α) :
    as.length < (encListBy f as).length + 1 := by
  induction as with
  | nil => simp [encListBy]
  | cons a as ih =>
    simp [encListBy]
    omega

theorem String.mk_data (s : String) : String.mk s.data = s := rfl

/-- Canonical character-level encoding of a message. -/
def encMessageL (m : Message) : List Char :=
  encStrL m.id ++ (encListBy encPairL m.aliases ++ encListBy encVariantL m.variants)

/-- Character-level decoder for `encMessageL`. -/
def decMessageL (l : List Char) : Option (Message × List Char) :=
  match decStrL l with
  | none => none
  | some (i, l1) =>
    match decListBy decPairL (l.length + 1) l1 with
    | none => none
    | some (al, l2) =>
      match decListBy decVariantL (l.length + 1) l2 with
      | none => none
      | some (vs, l3) => some (⟨i, al, vs⟩, l3)

/-- Modelled from the spec: `encodeMessage(Message) → rawText`
(`storage/helper.ts`, consumed as a pure codec). -/
def encodeMessage (m : Message) : String := String.mk (encMessageL m)

/-- Modelled from the spec: `parseMessage(path, rawText) → Message | fails`
(`storage/helper.ts`, consumed as a pure codec).  The path argument is
carried but the message content is decoded entirely from the raw text;
non-canonical raw text fails to decode. -/
def parseMessage (_path : String) (raw : String) : Option Message :=
  match decMessageL raw.data with
  | some (m, []) => some m
  | _ => none

theorem decMessageL_enc (m : Message) : decMessageL (encMessageL m) = some (m, []) := by
  have hal : m.aliases.length < (encMessageL m).length + 1 := by
    have h1 := encListBy_length encPairL m.aliases
    have h2 : (encListBy encPairL m.aliases).length ≤ (encMessageL m).length := by
      simp [encMessageL]
      omega
    omega
  have hvs : m.variants.length < (encMessageL m).length + 1 := by
    have h1 := encListBy_length encVariantL m.variants
    have h2 : (encListBy encVariantL m.variants).length ≤ (encMessageL m).length := by
      simp [encMessageL]
      omega
    omega
  have e1 : decStrL (encMessageL m)
      = some (m.id, encListBy encPairL m.aliases ++ encListBy encVariantL m.variants) := by
    rw [show encMessageL m
        = encStrL m.id ++ (encListBy encPairL m.aliases ++ encListBy encVariantL m.variants) from rfl,
      decStrL_enc]
  have e2 : decListBy decPairL ((encMessageL m).length + 1)
        (encListBy encPairL m.aliases ++ encListBy encVariantL m.variants)
      = some (m.aliases, encListBy encVariantL m.variants) :=
    decListBy_enc encPairL decPairL decPairL_enc m.aliases _ _ hal
  have e3 : decListBy decVariantL ((encMessageL m).length + 1) (encListBy encVariantL m.variants)
      = some (m.variants, []) := by
    simpa using decListBy_enc encVariantL decVariantL decVariantL_enc m.variants [] _ hvs
  simp only [decMessageL, e1, e2, e3]

theorem decMessageL_canon {l : List Char} {m : Message} {r : List Char}
    (h : decMessageL l = some (m, r)) : l = encMessageL m ++ r := by
  cases h1 : decStrL l with
  | none => simp [decMessageL, h1] at h
  | some q1 =>
    obtain ⟨i, l1⟩ := q1
    cases h2 : decListBy decPairL (l.length + 1) l1 with
    | none => simp [decMessageL, h1, h2] at h
    | some q2 =>
      obtain ⟨al, l2⟩ := q2
      cases h3 : decListBy decVariantL (l.length + 1) l2 with
      | none => simp [decMessageL, h1, h2, h3] at h
      | some q3 =>
        obtain ⟨vs, l3⟩ := q3
        simp only [decMessageL, h1, h2, h3, Option.some.injEq, Prod.mk.injEq] at h
        obtain ⟨hm, hr⟩ := h
        rw [← hm, ← hr]
        rw [decStrL_canon h1,
          decListBy_canon encPairL decPairL (fun l a r hh => decPairL_canon hh) _ _ _ _ h2,
          decListBy_canon encVariantL decVariantL (fun l a r hh => decVariantL_canon hh) _ _ _ _ h3]
        simp [encMessageL]

/-- Round-trip: decoding a canonically encoded message gives it back
(the testable property `parseMessage(getPathFromMessageId(id), encodeMessage(M)) ≡ M`). -/
theorem parseMessage_encodeMessage (path : String) (m : Message) :
    parseMessage path (encodeMessage m) = some m := by
  rw [parseMessage, encodeMessage]
  rw [show (String.mk (encMessageL m)).data = encMessageL m from rfl]
  rw [decMessageL_enc]

/-- The decoder accepts only canonical content: successful parses re-encode
to the exact raw text. -/
theorem encodeMessage_parseMessage {path raw : String} {m : Message}
    (h : parseMessage path raw = some m) : encodeMessage m = raw := by
  rw [parseMessage] at h
  cases hd : decMessageL raw.data with
  | none => rw [hd] at h; exact absurd h (by simp)
  | some q =>
    obtain ⟨m0, rest⟩ := q
    rw [hd] at h
    match rest, h with
    | [], h =>
      simp only [Option.some.injEq] at h
      subst h
      have := decMessageL_canon hd
      rw [encodeMessage, show raw = String.mk raw.data from rfl, this]
      simp

theorem encodeMessage_injective {m1 m2 : Message}
    (h : encodeMessage m1 = encodeMessage m2) : m1 = m2 := by
  have h1 := parseMessage_encodeMessage "" m1
  rw [h, parseMessage_encodeMessage "" m2] at h1
  exact (Option.some.injEq _ _).mp h1.symm

/-! ### Path helpers and the fresh-id hash (external collaborators) -/

/-- Modelled from the spec: the on-disk path fragment derived
deterministically and reversibly from a message id
(`getPathFromMessageId` of `storage/helper.ts`). -/
def getPathFromMessageId (id : String) : String := id ++ ".json"

/-- Modelled from the spec: the inverse path helper
(`getMessageIdFromPath` of `storage/helper.ts`).  Accepts both the
`/`-prefixed relative paths produced by the initial directory walk and the
bare file names carried by watcher events; rejects files that do not match
the id-derivation scheme. -/
def getMessageIdFromPath (path : String) : Option String :=
  let l := if path.data.head? = some '/' then path.data.drop 1 else path.data
  if ".json".data.isSuffixOf l then some (String.mk (l.take (l.length - 5))) else none

/-- Modelled from the spec: the deterministic fresh-id hash
`hash(seed, offset)` (`humanIdHash` of `storage/human-id`), a stable,
versioned contract.  Injectivity in both arguments is realised by an
unambiguous encoding (escaped seed, offset in unary). -/
def humanIdHash (originalId : String) (offset : Nat) : String :=
  String.mk ('h' :: 'i' :: 'd' :: ':' :: (escapeL originalId.data ++ ';' :: List.replicate offset 'o'))

theorem humanIdHash_injective {i1 i2 : String} {o1 o2 : Nat}
    (h : humanIdHash i1 o1 = humanIdHash i2 o2) : i1 = i2 ∧ o1 = o2 := by
  rw [humanIdHash, humanIdHash] at h
  have hdata : 'h' :: 'i' :: 'd' :: ':' :: (escapeL i1.data ++ ';' :: List.replicate o1 'o')
      = 'h' :: 'i' :: 'd' :: ':' :: (escapeL i2.data ++ ';' :: List.replicate o2 'o') :=
    congrArg String.data h
  simp only [List.cons.injEq, true_and] at hdata
  have h1 := unescapeL_escapeL i1.data (List.replicate o1 'o')
  rw [hdata, unescapeL_escapeL i2.data (List.replicate o2 'o')] at h1
  simp only [Option.some.injEq, Prod.mk.injEq] at h1
  obtain ⟨hi, ho⟩ := h1
  constructor
  · rw [← String.mk_data i1, ← String.mk_data i2, hi]
  · have := congrArg List.length ho
    simp at this
    omega

theorem humanIdHash_data_head (i : String) (o : Nat) :
    (humanIdHash i o).data.head? = some 'h' := rfl

/-! ### The filesystem model

The `NodeishFilesystem` consumed by `loadProject` (an external interface),
modelled as a flat association list from path to file content.  `stat` and
`readFile` succeed exactly on present keys; a missing key is the `ENOENT`
case of the source. -/

abbrev Fs := List (String × String)

def fsRead (fs : Fs) (p : String) : Option String := List.lookup p fs

def fsExists (fs : Fs) (p : String) : Bool := (fsRead fs p).isSome

def fsKeys (fs : Fs) : List String := fs.map (·.1)

/-- Removal with the source's `ENOENT` tolerance: erasing an absent path is
a no-op (models the `rm` call wrapped in the not-found catch). -/
def fsErase (fs : Fs) (p : String) : Fs := fs.filter (fun e => e.1 != p)

/-! ### The Message Store (external collaborator)

Modelled from the spec: `createMessagesQuery` maintains an in-memory
mapping of message ID → message with `get` / `getAll` / `upsert` /
`create` / `update` / `delete` / `includedMessageIds`, all synchronous and
free of I/O.  Modelled as an association list in insertion order; `upsert`
and `update` are keyed by the `where.id` argument, `create` by the id of
the created data. -/

abbrev Store := List (String × Message)

def storeKeys (S : Store) : List String := S.map (·.1)

/-- Query operation `get` keyed by the where-id. -/
def storeGet (S : Store) (id : String) : Option Message := List.lookup id S

/-- Query operation `getAll` — values in insertion order. -/
def storeGetAll (S : Store) : List Message := S.map (·.2)

/-- Map-style set: replaces the value at the key if present, appends
otherwise.  Implements `upsert`, `update` and `create`. -/
def storeSet : Store → String → Message → Store
  | [], k, v => [(k, v)]
  | (k', v') :: rest, k, v =>
    if k' = k then (k, v) :: rest else (k', v') :: storeSet rest k v

/-- Query operation `delete` keyed by the where-id. -/
def storeDelete (S : Store) (id : String) : Store := S.filter (fun e => e.1 != id)

/-- Query operation `includedMessageIds`. -/
def includedMessageIds (S : Store) : List String := storeKeys S

theorem storeGet_storeSet_self (S : Store) (k : String) (v : Message) :
    storeGet (storeSet S k v) k = some v := by
  induction S with
  | nil => simp [storeSet, storeGet, List.lookup]
  | cons e rest ih =>
    obtain ⟨k', v'⟩ := e
    by_cases hk : k' = k
    · subst hk
      simp [storeSet, storeGet, List.lookup]
    · simp only [storeSet, if_neg hk]
      simpa [storeGet, List.lookup, show (k == k') = false from by
        simp [BEq.comm] at hk ⊢
        exact fun hh => hk hh.symm] using ih

theorem storeGet_storeDelete_self (S : Store) (id : String) :
    storeGet (storeDelete S id) id = none := by
  induction S with
  | nil => simp [storeDelete, storeGet, List.lookup]
  | cons e rest ih =>
    obtain ⟨k', v'⟩ := e
    by_cases hk : k' = id
    · subst hk
      simpa [storeDelete, storeGet] using ih
    · have h1 : storeDelete ((k', v') :: rest) id = (k', v') :: storeDelete rest id := by
        simp [storeDelete, hk]
      have h2 : storeGet ((k', v') :: storeDelete rest id) id = storeGet (storeDelete rest id) id := by
        simp [storeGet, List.lookup, beq_eq_false_iff_ne.mpr (Ne.symm hk)]
      rw [h1, h2]
      exact ih

theorem storeDelete_idem (S : Store) (id : String) :
    storeDelete (storeDelete S id) id = storeDelete S id := by
  simp [storeDelete, List.filter_filter]

theorem storeSet_of_not_mem (S : Store) (k : String) (v : Message)
    (h : k ∉ storeKeys S) : storeSet S k v = S ++ [(k, v)] := by
  induction S with
  | nil => simp [storeSet]
  | cons e rest ih =>
    obtain ⟨k', v'⟩ := e
    have hk : k' ≠ k := by
      intro hh
      exact h (by simp [storeKeys, hh])
    have hrest : k ∉ storeKeys rest := fun hh => h (by simp [storeKeys] at hh ⊢; right; exact hh)
    simp [storeSet, hk, ih hrest]

/-! ### Project settings -/

/-- The shape of the raw settings value handled by the Settings Store.
Modelled from the spec: the schema includes `sourceLanguageTag`,
`languageTags` (a non-empty set), `messageLintRuleLevels` and a
schema-version marker consumed by the migration step.  Optional fields
model required properties that may be absent in an invalid value. -/
structure RawSettings where
  schemaVersion : Nat
  sourceLanguageTag : Option String
  languageTags : Option (List String)
  messageLintRuleLevels : List (String × String)
deriving DecidableEq, Repr

def currentSchemaVersion : Nat := 2

/-- A structured validation error (field path, message, offending value),
mirroring the typebox `ValueError`s carried by `ProjectSettingsInvalidError`. -/
structure SettingsError where
  path : String
  message : String
  value : String
deriving DecidableEq, Repr

/-- Modelled from the spec: the structured type errors enumerated by the
compiled settings schema (`settingsCompiler.Errors`). -/
def errorsOf (r : RawSettings) : List SettingsError :=
  (if r.schemaVersion = currentSchemaVersion then [] else
    [⟨"$schema", "unsupported schema version", toString r.schemaVersion⟩])
  ++ (match r.sourceLanguageTag with
      | none => [⟨"sourceLanguageTag", "required property missing", ""⟩]
      | some _ => [])
  ++ (match r.languageTags with
      | none => [⟨"languageTags", "required property missing", ""⟩]
      | some [] => [⟨"languageTags", "expected a non-empty set", "[]"⟩]
      | some (_ :: _) => [])

/-- Modelled from the spec: `settingsCompiler.Check` — schema conformance,
equivalent to the error enumeration being empty. -/
def check (r : RawSettings) : Bool := (errorsOf r).isEmpty

/-- Modelled from the spec: `migrateIfOutdated` rewrites deprecated shapes
into the current schema before validation (the version marker is brought up
to date; field content is preserved). -/
def migrateIfOutdated (r : RawSettings) : RawSettings :=
  if r.schemaVersion = currentSchemaVersion then r
  else { r with schemaVersion := currentSchemaVersion }

/-- The `parseSettings` function of `loadProject.ts`: checks the migrated value against
the schema but enumerates the structured errors over the unmigrated input
(and throws only if that enumeration is non-empty), then checks the
semantic invariant `sourceLanguageTag ∈ languageTags` on the unmigrated
input's fields; on success the migrated value is returned. -/
def parseSettings (settings : RawSettings) : Except (List SettingsError) RawSettings :=
  let withMigration := migrateIfOutdated settings
  if check withMigration = false ∧ (errorsOf settings).isEmpty = false then
    .error (errorsOf settings)
  else
    let sourceLanguageTag := settings.sourceLanguageTag.getD ""
    let languageTags := settings.languageTags.getD []
    if sourceLanguageTag ∈ languageTags then .ok withMigration
    else
      .error [⟨"sourceLanguageTag",
        "The sourceLanguageTag is not included in the languageTags. Please add it to the languageTags.",
        sourceLanguageTag⟩]

deriving instance DecidableEq for Except

/-- The outcome of `setSettings`: the in-memory settings signal after the
call, and the returned `Result`. -/
structure SetSettingsResult where
  state : Option RawSettings
  result : Except (List SettingsError) Unit
deriving DecidableEq, Repr

/-- The `setSettings` function of `loadProject.ts`: validates via `parseSettings`; on
success commits the validated (migrated) value to the settings signal, on
failure returns the `ProjectSettingsInvalidError` and leaves the signal
untouched. -/
def setSettings (current : Option RawSettings) (settings : RawSettings) : SetSettingsResult :=
  match parseSettings settings with
  | .ok validatedSettings => ⟨some validatedSettings, .ok ()⟩
  | .error e => ⟨current, .error e⟩

/-! ### JSON parsing of the settings file (external collaborator)

Modelled from the spec: `JSON.parse` followed by reading the settings
shape; realised as a concrete self-delimiting decoder (unary version
marker, `S`/`N`-tagged optional string, `L`/`N`-tagged optional string
list, pair list); content that does not match fails, which is the
`SettingsSyntaxError` case. -/

def decUnary : List Char → Nat × List Char
  | [] => (0, [])
  | c :: rest =>
    if c = 'v' then
      let (n, r) := decUnary rest
      (n + 1, r)
    else (0, c :: rest)

def decOptStr (l : List Char) : Option (Option String × List Char) :=
  match l with
  | [] => none
  | c :: rest =>
    if c = 'S' then
      match decStrL rest with
      | none => none
      | some (s, r) => some (some s, r)
    else if c = 'N' then some (none, rest)
    else none

def decOptListStr (fuel : Nat) (l : List Char) : Option (Option (List String) × List Char) :=
  match l with
  | [] => none
  | c :: rest =>
    if c = 'L' then
      match decListBy decStrL fuel rest with
      | none => none
      | some (xs, r) => some (some xs, r)
    else if c = 'N' then some (none, rest)
    else none

def jsonParse (text : String) : Option RawSettings :=
  let l := text.data
  match decUnary l with
  | (ver, l0) =>
    match l0 with
    | ';' :: l1 =>
      match decOptStr l1 with
      | none => none
      | some (src, l2) =>
        match decOptListStr (l.length + 1) l2 with
        | none => none
        | some (tags, l3) =>
          match decListBy decPairL (l.length + 1) l3 with
          | none => none
          | some (levels, []) => some ⟨ver, src, tags, levels⟩
          | some (_, _ :: _) => none
    | _ => none

/-- The `loadSettings` function of `loadProject.ts`: a failing read surfaces as
`ProjectSettingsFileNotFoundError`, unparsable JSON as
`ProjectSettingsFileJSONSyntaxError`, and the parsed value goes through
`parseSettings`. -/
inductive ProjErr where
  | settingsNotFound (path : String)
  | settingsSyntaxError (path : String)
  | settingsInvalid (errors : List SettingsError)
  | moduleError (message : String)
deriving DecidableEq, Repr

def loadSettings (fs : Fs) (settingsFilePath : String) : Except ProjErr RawSettings :=
  match fsRead fs settingsFilePath with
  | none => .error (.settingsNotFound settingsFilePath)
  | some settingsFile =>
    match jsonParse settingsFile with
    | none => .error (.settingsSyntaxError settingsFilePath)
    | some json =>
      match parseSettings json with
      | .ok s => .ok s
      | .error e => .error (.settingsInvalid e)

/-- The project path validation of `loadProject`: an absolute path
(modelled from the spec: `isAbsolutePath`) matching the source regex
/[^\\/]+\.inlang$/. -/
def validProjectPath (p : String) : Bool :=
  (p.data.head? = some '/') &&
    (".inlang".data.reverse.isPrefixOf p.data.reverse) &&
    (match p.data.reverse.drop 7 with
     | [] => false
     | c :: _ => c != '/' && c != '\\')

/-! ### The Filesystem Synchronizer: watcher loop -/

def messageFolderPath (projectPath : String) : String := projectPath ++ "/messages" ++ "/v1"

/-- Outcome of processing one watch event: the store afterwards, plus which
operations the handler performed (`upserted` / `deleted`) and whether the
file content was handed to the codec (`decodeAttempted`). -/
structure WatchResult where
  store : Store
  upserted : Bool
  deleted : Bool
  decodeAttempted : Bool
deriving DecidableEq, Repr

/-- The body of the watcher loop of `loadProject.ts` for one event: derive
the message id from the event's file name (no id: ignore); read the file
(`ENOENT` is tolerated and leaves the content undefined); `!fileContent`
(undefined or the falsy empty string) drops the message from the store;
otherwise decode, skip when the store's current value re-encodes to exactly
the file content, else upsert; decode failures are swallowed. -/
def handleWatchEvent (msgDir : String) (fs : Fs) (S : Store) (filename : String) : WatchResult :=
  match getMessageIdFromPath filename with
  | none => ⟨S, false, false, false⟩
  | some messageId =>
    match fsRead fs (msgDir ++ "/" ++ filename) with
    | none => ⟨storeDelete S messageId, false, true, false⟩
    | some fileContent =>
      if fileContent = "" then ⟨storeDelete S messageId, false, true, false⟩
      else
        match parseMessage filename fileContent with
        | none => ⟨S, false, false, true⟩
        | some message =>
          match storeGet S messageId with
          | some currentMessage =>
            if encodeMessage currentMessage = fileContent then ⟨S, false, false, true⟩
            else ⟨storeSet S messageId message, true, false, true⟩
          | none => ⟨storeSet S messageId message, true, false, true⟩

/-! ### The Filesystem Synchronizer: outbound persistence bookkeeping -/

/-- Result of one reconciliation pass of the tracked-messages effect. -/
structure SyncResult where
  tracked : List String
  fs : Fs
deriving DecidableEq, Repr

/-- The tracked-messages effect of `loadProject.ts`: ids newly present in
the store get a persistence registration; ids that vanished from the store
have their message file removed (tolerating an absent file) and their
registration disposed. -/
def syncTrackedMessages (msgDir : String) (tracked : List String) (S : Store) (fs : Fs) :
    SyncResult :=
  let currentMessageIds := includedMessageIds S
  let deletedIds := tracked.filter (fun id => !(currentMessageIds.contains id))
  let newlyTracked := currentMessageIds.filter (fun id => !(tracked.contains id))
  let fs2 := deletedIds.foldl
    (fun f id => fsErase f (msgDir ++ "/" ++ getPathFromMessageId id)) fs
  ⟨tracked.filter (fun id => currentMessageIds.contains id) ++ newlyTracked, fs2⟩

/-! ### The Filesystem Synchronizer: initial load -/

def stripPrefixL : List Char → List Char → Option (List Char)
  | [], l => some l
  | _ :: _, [] => none
  | p :: ps, c :: cs => if p = c then stripPrefixL ps cs else none

/-- What `loadAndSetMessages` produces: the loaded snapshot, and the parse
errors it records for later surfacing.  In the source the recording is
commented out (the `messageParseErrors` updates under TODO #1844), so the
recorded list is always empty. -/
structure LoadResult where
  messages : List Message
  recordedErrors : List String
deriving DecidableEq, Repr

/-- The `loadAndSetMessages` routine of `loadProject.ts`: enumerate all files under the
message folder (the recursive walk yields `/`-prefixed relative paths),
skip files whose path derives no message id, decode the rest, push
successful decodes and swallow per-file decode failures (the catch block
that would record them is commented out in the source). -/
def loadAndSetMessages (msgDir : String) (fs : Fs) : LoadResult :=
  let messageFilePaths := fs.filterMap (fun e =>
    match stripPrefixL msgDir.data e.1.data with
    | some ('/' :: restPath) => some (String.mk ('/' :: restPath))
    | _ => none)
  let loadedMessages := messageFilePaths.foldl (fun acc messageFilePath =>
    match getMessageIdFromPath messageFilePath with
    | none => acc
    | some _messageId =>
      match fsRead fs (msgDir ++ messageFilePath) with
      | none => acc
      | some messageRaw =>
        match parseMessage messageFilePath messageRaw with
        | some message => acc ++ [message]
        | none => acc) []
  ⟨loadedMessages, []⟩

/-- The initial store snapshot: the loaded messages keyed by their ids. -/
def initialStore (msgs : List Message) : Store :=
  msgs.foldl (fun S m => storeSet S m.id m) []

/-! ### The Import Reconciler -/

def paraglideId : String := "library.inlang.paraglideJs"

/-- The alias object built by the import loop: the importing module's id and
the fixed downstream consumer id, both mapped to the imported message's
original id. -/
def stdAlias (pluginId impId : String) : List (String × String) :=
  [(pluginId, impId), (paraglideId, impId)]

/-- An import failure, carrying the live store at the moment of the throw
(the in-memory store retains all mutations applied before the throw). -/
structure ImportError where
  message : String
  storeAtFailure : Store
deriving DecidableEq, Repr

/-- The store messages whose alias entry for the importing module equals
the imported message's own id (the filter over `getAll()` in the import
loop). -/
def matchesFor (S : Store) (pluginId impId : String) : List Message :=
  (storeGetAll S).filter (fun message => List.lookup pluginId message.aliases == some impId)

/-- The fresh-id probe loop of the import reconciler: hash the imported id
with an offset starting at 0; `stat` the candidate's derived path — in the
source the `messageFolderPath + "/" +` prefix of the statted path is
commented out, so the probe checks the bare path fragment; on `ENOENT` the
candidate is kept, otherwise the offset is incremented.  The source loops
without bound; the model carries fuel and reports exhaustion as an error. -/
def probeFreshId (fs : Fs) (originalId : String) : Nat → Nat → Option String
  | 0, _ => none
  | fuel + 1, currentOffset =>
    if fsExists fs (getPathFromMessageId (humanIdHash originalId currentOffset)) then
      probeFreshId fs originalId fuel (currentOffset + 1)
    else some (humanIdHash originalId currentOffset)

def dupAliasMsg : String := "more than one message with the same alias found "

/-- One iteration of the import loop of `loadProject.ts`: more than one
alias match is a fatal internal consistency error; exactly one match
rewrites the imported message's alias to the standard pair, rebinds its id
to the existing message's id, and updates only if the encoded content
differs; zero matches assign a fresh probed id and create the message.
The `Nat` component counts store mutations. -/
def importStep (pluginId : String) (fs : Fs) (acc : Store × Nat) (importedMessage : Message) :
    Except ImportError (Store × Nat) :=
  let currentMessages := matchesFor acc.1 pluginId importedMessage.id
  match currentMessages with
  | _ :: _ :: _ => .error ⟨dupAliasMsg, acc.1⟩
  | [cur] =>
    let updated : Message := ⟨cur.id, stdAlias pluginId importedMessage.id, importedMessage.variants⟩
    if encodeMessage updated = encodeMessage cur then .ok (acc.1, acc.2)
    else .ok (storeSet acc.1 updated.id updated, acc.2 + 1)
  | [] =>
    match probeFreshId fs importedMessage.id (fs.length + 1) 0 with
    | none => .error ⟨"fresh-id probe exhausted", acc.1⟩
    | some messsageId =>
      let created : Message :=
        ⟨messsageId, stdAlias pluginId importedMessage.id, importedMessage.variants⟩
      .ok (storeSet acc.1 messsageId created, acc.2 + 1)

def foldImport (pluginId : String) (fs : Fs) :
    Store × Nat → List Message → Except ImportError (Store × Nat)
  | acc, [] => .ok acc
  | acc, importedMessage :: rest =>
    match importStep pluginId fs acc importedMessage with
    | .error e => .error e
    | .ok acc2 => foldImport pluginId fs acc2 rest

/-- Modelled from the spec: the `localeCompare` order on ids, realised as
lexicographic order on the character sequences. -/
def leId : List Char → List Char → Bool
  | [], _ => true
  | _ :: _, [] => false
  | c :: cs, d :: ds =>
    if c.toNat < d.toNat then true
    else if d.toNat < c.toNat then false
    else leId cs ds

/-- The import loop sorts the adapter output ascending by id
(`localeCompare`), stably. -/
def sortById (importedMessages : List Message) : List Message :=
  importedMessages.insertionSort (fun a b => leId a.id.data b.id.data = true)

/-- The whole import reconciliation run of `loadProject.ts`. -/
def runImport (pluginId : String) (fs : Fs) (S : Store) (importedMessages : List Message) :
    Except ImportError (Store × Nat) :=
  foldImport pluginId fs (S, 0) (sortById importedMessages)

/-! ### The Project Facade -/

/-- The output contract of the (external) module resolver that matters to
the synchronization engine: the plugin providing `loadMessages`, the
adapter output, and the resolution errors. -/
structure ResolvedModulesModel where
  loadMessagesPluginId : Option String
  importedMessages : List Message
  errors : List String

/-- The project handle surface relevant to the claims: the settings signal,
the aggregated error list, and the message store. -/
structure ProjectHandle where
  settings : Option RawSettings
  errors : List ProjErr
  store : Store
deriving DecidableEq, Repr

/-- The `loadProject` control flow sequentialized: path validation throws; a settings
failure is captured by `markInitAsFailed` and lands in the handle's error
list (`await initialized.catch((error) => error)` — the handle is still
returned); otherwise messages are loaded and, when the resolved modules
provide `loadMessages`, the import reconciliation runs, whose errors
propagate out of `loadProject`. -/
def loadProjectModel (projectPath : String) (fs : Fs)
    (resolver : RawSettings → ResolvedModulesModel) : Except String ProjectHandle :=
  if validProjectPath projectPath = false then .error "LoadProjectInvalidArgument"
  else
    let msgDir := messageFolderPath projectPath
    match loadSettings fs (projectPath ++ "/settings.json") with
    | .error e => .ok ⟨none, [e], []⟩
    | .ok settingsValue =>
      let mods := resolver settingsValue
      let load := loadAndSetMessages msgDir fs
      let S0 := initialStore load.messages
      let errors := mods.errors.map ProjErr.moduleError
      match mods.loadMessagesPluginId with
      | none => .ok ⟨some settingsValue, errors, S0⟩
      | some loadPluginId =>
        match runImport loadPluginId fs S0 mods.importedMessages with
        | .error e => .error e.message
        | .ok (S1, _) => .ok ⟨some settingsValue, errors, S1⟩

/-! ### Settings lemmas and claim C1 -/

theorem errorsOf_nonempty_of_check_migrate_false (s : RawSettings)
    (h : check (migrateIfOutdated s) = false) : (errorsOf s).isEmpty = false := by
  rcases s with ⟨v, src, tags, lv⟩
  by_cases hv : v = currentSchemaVersion <;>
    cases src <;> rcases tags with _ | ⟨_ | ⟨t, ts⟩⟩ <;>
      simp_all [check, errorsOf, migrateIfOutdated]

theorem migrateIfOutdated_fields (s : RawSettings) :
    (migrateIfOutdated s).sourceLanguageTag = s.sourceLanguageTag
      ∧ (migrateIfOutdated s).languageTags = s.languageTags := by
  rcases s with ⟨v, src, tags, lv⟩
  by_cases hv : v = currentSchemaVersion <;> simp [migrateIfOutdated, hv]

theorem parseSettings_ok_of (s : RawSettings)
    (h1 : check (migrateIfOutdated s) = true)
    (h2 : s.sourceLanguageTag.getD "" ∈ s.languageTags.getD []) :
    parseSettings s = .ok (migrateIfOutdated s) := by
  rw [parseSettings]
  rw [if_neg (by simp [h1])]
  simp [h2]

theorem parseSettings_error_of_check (s : RawSettings)
    (h1 : check (migrateIfOutdated s) = false) :
    parseSettings s = .error (errorsOf s) := by
  rw [parseSettings]
  rw [if_pos ⟨h1, errorsOf_nonempty_of_check_migrate_false s h1⟩]

theorem parseSettings_error_of_sem (s : RawSettings)
    (h1 : check (migrateIfOutdated s) = true)
    (h2 : s.sourceLanguageTag.getD "" ∉ s.languageTags.getD []) :
    parseSettings s
      = .error [⟨"sourceLanguageTag",
          "The sourceLanguageTag is not included in the languageTags. Please add it to the languageTags.",
          s.sourceLanguageTag.getD ""⟩] := by
  rw [parseSettings]
  rw [if_neg (by simp [h1])]
  simp [h2]

theorem parseSettings_error_nonempty {s : RawSettings} {es : List SettingsError}
    (h : parseSettings s = .error es) : es ≠ [] := by
  by_cases h1 : check (migrateIfOutdated s) = true
  · by_cases h2 : s.sourceLanguageTag.getD "" ∈ s.languageTags.getD []
    · rw [parseSettings_ok_of s h1 h2] at h
      exact absurd h (by simp)
    · rw [parseSettings_error_of_sem s h1 h2] at h
      simp only [Except.error.injEq] at h
      rw [← h]
      simp
  · have h1f : check (migrateIfOutdated s) = false := by
      simpa using h1
    rw [parseSettings_error_of_check s h1f] at h
    simp only [Except.error.injEq] at h
    rw [← h]
    have := errorsOf_nonempty_of_check_migrate_false s h1f
    intro hnil
    rw [hnil] at this
    simp at this

/-- C1: a settings value passed to settings loading or to `setSettings` is
accepted and committed exactly when it conforms to the settings schema
after migration and its `sourceLanguageTag` is a member of its
`languageTags`; a rejected value surfaces as a `SettingsInvalid` error
carrying a non-empty list of structured errors and leaves the in-memory
settings untouched; every settings value produced by a successful load
satisfies the schema and the semantic invariant. -/
theorem setSettings_validates (current : Option RawSettings) (s : RawSettings) :
    (((setSettings current s).state = some (migrateIfOutdated s)
        ∧ (setSettings current s).result = .ok ())
      ↔ (check (migrateIfOutdated s) = true
        ∧ s.sourceLanguageTag.getD "" ∈ s.languageTags.getD []))
    ∧ (∀ es, (setSettings current s).result = .error es →
        es ≠ [] ∧ (setSettings current s).state = current)
    ∧ (∀ (fs : Fs) (path : String) (v : RawSettings), loadSettings fs path = .ok v →
        check v = true ∧ v.sourceLanguageTag.getD "" ∈ v.languageTags.getD []) := by
  refine ⟨⟨?_, ?_⟩, ?_, ?_⟩
  · intro ⟨hstate, hres⟩
    by_cases h1 : check (migrateIfOutdated s) = true
    · by_cases h2 : s.sourceLanguageTag.getD "" ∈ s.languageTags.getD []
      · exact ⟨h1, h2⟩
      · rw [setSettings, parseSettings_error_of_sem s h1 h2] at hres
        exact absurd hres (by simp)
    · have h1f : check (migrateIfOutdated s) = false := by simpa using h1
      rw [setSettings, parseSettings_error_of_check s h1f] at hres
      exact absurd hres (by simp)
  · intro ⟨h1, h2⟩
    rw [setSettings, parseSettings_ok_of s h1 h2]
    exact ⟨rfl, rfl⟩
  · intro es hres
    by_cases h1 : check (migrateIfOutdated s) = true
    · by_cases h2 : s.sourceLanguageTag.getD "" ∈ s.languageTags.getD []
      · rw [setSettings, parseSettings_ok_of s h1 h2] at hres
        exact absurd hres (by simp)
      · constructor
        · rw [setSettings, parseSettings_error_of_sem s h1 h2] at hres
          simp only [Except.error.injEq] at hres
          rw [← hres]
          simp
        · rw [setSettings, parseSettings_error_of_sem s h1 h2]
    · have h1f : check (migrateIfOutdated s) = false := by simpa using h1
      constructor
      · rw [setSettings, parseSettings_error_of_check s h1f] at hres
        simp only [Except.error.injEq] at hres
        rw [← hres]
        have := errorsOf_nonempty_of_check_migrate_false s h1f
        intro hnil
        rw [hnil] at this
        simp at this
      · rw [setSettings, parseSettings_error_of_check s h1f]
  · intro fs path v hload
    rw [loadSettings] at hload
    cases hread : fsRead fs path with
    | none => rw [hread] at hload; exact absurd hload (by simp)
    | some content =>
      rw [hread] at hload
      cases hjson : jsonParse content with
      | none => simp [hjson] at hload
      | some raw =>
        simp only [hjson] at hload
        cases hps : parseSettings raw with
        | error e => simp [hps] at hload
        | ok v0 =>
          simp only [hps, Except.ok.injEq] at hload
          by_cases h1 : check (migrateIfOutdated raw) = true
          · by_cases h2 : raw.sourceLanguageTag.getD "" ∈ raw.languageTags.getD []
            · rw [parseSettings_ok_of raw h1 h2] at hps
              simp only [Except.ok.injEq] at hps
              rw [← hload, ← hps]
              obtain ⟨e1, e2⟩ := migrateIfOutdated_fields raw
              exact ⟨h1, by rw [e1, e2]; exact h2⟩
            · rw [parseSettings_error_of_sem raw h1 h2] at hps
              exact absurd hps (by simp)
          · have h1f : check (migrateIfOutdated raw) = false := by simpa using h1
            rw [parseSettings_error_of_check raw h1f] at hps
            exact absurd hps (by simp)

/-- C1 witness: a concrete valid value is committed, a concrete value with
`sourceLanguageTag ∉ languageTags` is rejected with a non-empty error list
and no state change. -/
theorem setSettings_validates_witness :
    ((setSettings none ⟨2, some "en", some ["en"], []⟩).state
        = some (migrateIfOutdated ⟨2, some "en", some ["en"], []⟩)
      ∧ (setSettings none ⟨2, some "en", some ["en"], []⟩).result = .ok ())
    ∧ (∀ es, (setSettings (some ⟨2, some "en", some ["en"], []⟩) ⟨2, some "de", some ["en"], []⟩).result
          = .error es →
        es ≠ [] ∧ (setSettings (some ⟨2, some "en", some ["en"], []⟩) ⟨2, some "de", some ["en"], []⟩).state
          = some ⟨2, some "en", some ["en"], []⟩) :=
  ⟨(setSettings_validates none ⟨2, some "en", some ["en"], []⟩).1.mpr (by decide),
   (setSettings_validates (some ⟨2, some "en", some ["en"], []⟩) ⟨2, some "de", some ["en"], []⟩).2.1⟩

/-! ### Claim C8: settings-loading failures -/

/-- C8 (amended): `loadSettings` fails with `SettingsNotFound` exactly when
the settings file is missing, and with `SettingsSyntaxError` exactly when
the file is read but its content is not parsable JSON; a missing settings
file does not make `loadProject` fail — the failure is captured and the
project handle is returned with the `SettingsNotFound` error in its error
list. -/
theorem loadSettings_error_characterization :
    (∀ (fs : Fs) (path : String),
      loadSettings fs path = .error (.settingsNotFound path) ↔ fsRead fs path = none)
    ∧ (∀ (fs : Fs) (path : String),
      loadSettings fs path = .error (.settingsSyntaxError path)
        ↔ ∃ content, fsRead fs path = some content ∧ jsonParse content = none)
    ∧ (∀ (projectPath : String) (fs : Fs) (resolver : RawSettings → ResolvedModulesModel),
        validProjectPath projectPath = true →
        fsRead fs (projectPath ++ "/settings.json") = none →
        loadProjectModel projectPath fs resolver
          = .ok ⟨none, [.settingsNotFound (projectPath ++ "/settings.json")], []⟩) := by
  have hchar : ∀ (fs : Fs) (path : String),
      (fsRead fs path = none → loadSettings fs path = .error (.settingsNotFound path))
      ∧ (∀ content, fsRead fs path = some content → jsonParse content = none →
          loadSettings fs path = .error (.settingsSyntaxError path))
      ∧ (∀ content raw, fsRead fs path = some content → jsonParse content = some raw →
          loadSettings fs path = (parseSettings raw).mapError ProjErr.settingsInvalid) := by
    intro fs path
    refine ⟨?_, ?_, ?_⟩
    · intro h
      rw [loadSettings, h]
    · intro content h1 h2
      rw [loadSettings, h1]
      simp [h2]
    · intro content raw h1 h2
      rw [loadSettings, h1]
      simp only [h2]
      cases hps : parseSettings raw <;> simp [Except.mapError]
  refine ⟨?_, ?_, ?_⟩
  · intro fs path
    constructor
    · intro h
      cases hread : fsRead fs path with
      | none => rfl
      | some content =>
        cases hjson : jsonParse content with
        | none =>
          rw [(hchar fs path).2.1 content hread hjson] at h
          simp at h
        | some raw =>
          rw [(hchar fs path).2.2 content raw hread hjson] at h
          cases hps : parseSettings raw <;> simp [hps, Except.mapError] at h
    · exact (hchar fs path).1
  · intro fs path
    constructor
    · intro h
      cases hread : fsRead fs path with
      | none =>
        rw [(hchar fs path).1 hread] at h
        simp at h
      | some content =>
        cases hjson : jsonParse content with
        | none => exact ⟨content, rfl, hjson⟩
        | some raw =>
          rw [(hchar fs path).2.2 content raw hread hjson] at h
          cases hps : parseSettings raw <;> simp [hps, Except.mapError] at h
    · intro ⟨content, h1, h2⟩
      exact (hchar fs path).2.1 content h1 h2
  · intro projectPath fs resolver hvalid hmissing
    rw [loadProjectModel, if_neg (by simp [hvalid])]
    rw [(hchar fs (projectPath ++ "/settings.json")).1 hmissing]

/-- C8 counterexample to the claim as stated: with the settings file missing
at `/p.inlang/settings.json`, project construction does not fail — it
returns a handle carrying the `SettingsNotFound` error in its error list. -/
theorem loadProject_missing_settings_returns_handle :
    loadProjectModel "/p.inlang" [] (fun _ => ⟨none, [], []⟩)
      = .ok ⟨none, [.settingsNotFound "/p.inlang/settings.json"], []⟩ := by decide

/-- C8 witness: the characterizations applied at concrete inputs. -/
theorem loadSettings_error_characterization_witness :
    loadSettings [] "/p.inlang/settings.json"
        = .error (.settingsNotFound "/p.inlang/settings.json")
    ∧ loadSettings [("/p.inlang/settings.json", "not json")] "/p.inlang/settings.json"
        = .error (.settingsSyntaxError "/p.inlang/settings.json") :=
  ⟨(loadSettings_error_characterization.1 [] "/p.inlang/settings.json").mpr (by decide),
   (loadSettings_error_characterization.2.1 [("/p.inlang/settings.json", "not json")]
      "/p.inlang/settings.json").mpr ⟨"not json", by decide, by decide⟩⟩

/-! ### Watcher claims C4, C10, C9 -/

/-- C4: processing the same watch event twice with identical file content
produces at most one store mutation — the store after the second processing
equals the store after the first, and the second processing never reaches
the upsert (for present content the store's value re-encodes to exactly the
file content, so the equality check skips it). -/
theorem handleWatchEvent_idempotent (msgDir : String) (fs : Fs) (S : Store) (filename : String) :
    (handleWatchEvent msgDir fs (handleWatchEvent msgDir fs S filename).store filename).store
      = (handleWatchEvent msgDir fs S filename).store
    ∧ (handleWatchEvent msgDir fs (handleWatchEvent msgDir fs S filename).store filename).upserted
      = false := by
  cases hid : getMessageIdFromPath filename with
  | none => simp [handleWatchEvent, hid]
  | some messageId =>
    cases hread : fsRead fs (msgDir ++ "/" ++ filename) with
    | none =>
      simp [handleWatchEvent, hid, hread, storeDelete_idem]
    | some content =>
      by_cases hempty : content = ""
      · subst hempty
        simp [handleWatchEvent, hid, hread, storeDelete_idem]
      · cases hparse : parseMessage filename content with
        | none => simp [handleWatchEvent, hid, hread, hempty, hparse]
        | some message =>
          have henc2 : encodeMessage message = content := encodeMessage_parseMessage hparse
          cases hcur : storeGet S messageId with
          | some currentMessage =>
            by_cases henc : encodeMessage currentMessage = content
            · simp [handleWatchEvent, hid, hread, hempty, hparse, hcur, henc]
            · have hget2 := storeGet_storeSet_self S messageId message
              simp [handleWatchEvent, hid, hread, hempty, hparse, hcur, henc, hget2, henc2]
          | none =>
            have hget2 := storeGet_storeSet_self S messageId message
            simp [handleWatchEvent, hid, hread, hempty, hparse, hcur, hget2, henc2]

/-- C10: a watch event for a file that exists but reads as the empty string
is handled exactly like a deletion: the message with the derived id is
dropped from the store and the content is never handed to the codec
(`decodeAttempted = false`). -/
theorem handleWatchEvent_empty_file (msgDir : String) (fs : Fs) (S : Store)
    (filename messageId : String)
    (hid : getMessageIdFromPath filename = some messageId)
    (hread : fsRead fs (msgDir ++ "/" ++ filename) = some "") :
    handleWatchEvent msgDir fs S filename = ⟨storeDelete S messageId, false, true, false⟩
    ∧ storeGet (handleWatchEvent msgDir fs S filename).store messageId = none := by
  have h1 : handleWatchEvent msgDir fs S filename = ⟨storeDelete S messageId, false, true, false⟩ := by
    simp [handleWatchEvent, hid, hread]
  refine ⟨h1, ?_⟩
  rw [h1]
  exact storeGet_storeDelete_self S messageId

/-- C10 witness. -/
theorem handleWatchEvent_empty_file_witness :
    handleWatchEvent "/p.inlang/messages/v1" [("/p.inlang/messages/v1/hello.json", "")]
        [("hello", ⟨"hello", [], [⟨"en", "Hi"⟩]⟩)] "hello.json"
      = ⟨[], false, true, false⟩
    ∧ storeGet (handleWatchEvent "/p.inlang/messages/v1"
        [("/p.inlang/messages/v1/hello.json", "")]
        [("hello", ⟨"hello", [], [⟨"en", "Hi"⟩]⟩)] "hello.json").store "hello" = none := by
  have := handleWatchEvent_empty_file "/p.inlang/messages/v1"
    [("/p.inlang/messages/v1/hello.json", "")]
    [("hello", ⟨"hello", [], [⟨"en", "Hi"⟩]⟩)] "hello.json" "hello"
    (by decide) (by decide)
  exact ⟨by rw [this.1]; decide, this.2⟩

theorem lookup_filter_ne_self {β : Type} (l : List (String × β)) (p : String) :
    List.lookup p (l.filter (fun e => e.1 != p)) = none := by
  induction l with
  | nil => simp
  | cons e rest ih =>
    obtain ⟨k, v⟩ := e
    by_cases hk : k = p
    · subst hk
      simpa using ih
    · have h1 : List.filter (fun e => e.1 != p) ((k, v) :: rest)
          = (k, v) :: List.filter (fun e => e.1 != p) rest := by
        simp [List.filter_cons, hk]
      rw [h1, List.lookup]
      rw [show (p == k) = false from beq_eq_false_iff_ne.mpr (Ne.symm hk)]
      exact ih

theorem lookup_none_filter {β : Type} (l : List (String × β)) (p : String)
    (q : String × β → Bool) (h : List.lookup p l = none) :
    List.lookup p (l.filter q) = none := by
  induction l with
  | nil => simp
  | cons e rest ih =>
    obtain ⟨k, v⟩ := e
    rw [List.lookup] at h
    cases hpk : (p == k) with
    | true => rw [hpk] at h; exact absurd h (by simp)
    | false =>
      rw [hpk] at h
      rw [List.filter_cons]
      by_cases hq : q (k, v)
      · rw [if_pos hq, List.lookup, hpk]
        exact ih h
      · rw [if_neg hq]
        exact ih h

theorem fsRead_fsErase_self (fs : Fs) (p : String) : fsRead (fsErase fs p) p = none :=
  lookup_filter_ne_self fs p

theorem fsRead_fsErase_none (fs : Fs) (p q : String) (h : fsRead fs p = none) :
    fsRead (fsErase fs q) p = none :=
  lookup_none_filter fs p _ h

theorem fsRead_foldl_erase_none (msgDir : String) (ids : List String) (fs : Fs) (p : String)
    (h : fsRead fs p = none) :
    fsRead (ids.foldl (fun f id => fsErase f (msgDir ++ "/" ++ getPathFromMessageId id)) fs) p
      = none := by
  induction ids generalizing fs with
  | nil => exact h
  | cons i rest ih =>
    exact ih _ (fsRead_fsErase_none fs p _ h)

theorem fsRead_foldl_erase_mem (msgDir : String) (ids : List String) (fs : Fs) (i : String)
    (h : i ∈ ids) :
    fsRead (ids.foldl (fun f id => fsErase f (msgDir ++ "/" ++ getPathFromMessageId id)) fs)
      (msgDir ++ "/" ++ getPathFromMessageId i) = none := by
  induction ids generalizing fs with
  | nil => exact absurd h (by simp)
  | cons j rest ih =>
    by_cases hij : i ∈ rest
    · exact ih _ hij
    · have hj : j = i := by
        rcases List.mem_cons.mp h with h1 | h1
        · exact h1.symm
        · exact absurd h1 hij
      subst hj
      exact fsRead_foldl_erase_none msgDir rest _ _ (fsRead_fsErase_self fs _)

/-- C9: a watch event for a message's file whose read fails with not-found
removes the message from the store (`get` returns absent afterwards), and
removal of a message id from the store makes the tracked-messages pass
delete its on-disk file (tolerating an already-absent file: the pass is
total and the path is absent afterwards either way). -/
theorem watch_delete_and_store_removal (msgDir : String) (fs fs2 : Fs) (S S2 : Store)
    (id : String) (m : Message) (tracked : List String)
    (hround : getMessageIdFromPath (getPathFromMessageId id) = some id)
    (_hpresent : storeGet S id = some m)
    (habsent : fsRead fs (msgDir ++ "/" ++ getPathFromMessageId id) = none)
    (htracked : id ∈ tracked)
    (hremoved : id ∉ includedMessageIds S2) :
    storeGet (handleWatchEvent msgDir fs S (getPathFromMessageId id)).store id = none
    ∧ fsRead (syncTrackedMessages msgDir tracked S2 fs2).fs
        (msgDir ++ "/" ++ getPathFromMessageId id) = none := by
  constructor
  · have h1 : (handleWatchEvent msgDir fs S (getPathFromMessageId id)).store
        = storeDelete S id := by
      simp [handleWatchEvent, hround, habsent]
    rw [h1]
    exact storeGet_storeDelete_self S id
  · have hmem : id ∈ tracked.filter
        (fun i => !((includedMessageIds S2).contains i)) := by
      rw [List.mem_filter]
      exact ⟨htracked, by simpa using hremoved⟩
    exact fsRead_foldl_erase_mem msgDir _ fs2 id hmem

/-- C9 witness: the `en/hello`-style scenario — deleting the message file
drops `hello` from the store, and dropping `hello` from the store removes
its file. -/
theorem watch_delete_and_store_removal_witness :
    storeGet (handleWatchEvent "/p.inlang/messages/v1" [] [("hello", ⟨"hello", [], [⟨"en", "Hi"⟩]⟩)]
        (getPathFromMessageId "hello")).store "hello" = none
    ∧ fsRead (syncTrackedMessages "/p.inlang/messages/v1" ["hello"] []
        [("/p.inlang/messages/v1/hello.json", "x")]).fs
        ("/p.inlang/messages/v1" ++ "/" ++ getPathFromMessageId "hello") = none :=
  watch_delete_and_store_removal "/p.inlang/messages/v1" []
    [("/p.inlang/messages/v1/hello.json", "x")]
    [("hello", ⟨"hello", [], [⟨"en", "Hi"⟩]⟩)] [] "hello" ⟨"hello", [], [⟨"en", "Hi"⟩]⟩ ["hello"]
    (by decide) (by decide) (by decide) (by decide) (by decide)

/-! ### Claim C6: decode-failure isolation in the initial load -/

/-- C6: a decode failure for one message file does not abort the initial
load — the other files are still decoded and committed and loading
completes — but the failing file's error is recorded nowhere: the catch
block that would populate `messageParseErrors` is commented out in the
source (TODO #1844), so the recorded error list stays empty and the
project's error list never carries the parse error. -/
theorem loadAndSetMessages_swallows_parse_errors :
    parseMessage "/bad.json" "notvalid" = none
    ∧ loadAndSetMessages "/p.inlang/messages/v1"
        [("/p.inlang/messages/v1/hello.json", encodeMessage ⟨"hello", [], [⟨"en", "Hi"⟩]⟩),
         ("/p.inlang/messages/v1/bad.json", "notvalid")]
      = ⟨[⟨"hello", [], [⟨"en", "Hi"⟩]⟩], []⟩ := by decide

/-! ### Claim C2: the fresh-id probe -/

/-- C2: the fresh-id probe `stat`s `getPathFromMessageId(candidate)` with
the `messageFolderPath + "/"` prefix commented out in the source, so an
existing message file at the candidate's derived path inside the message
folder is not detected: the import accepts offset 0 and assigns an id whose
message file already exists on disk, contradicting the claimed freshness
guarantee. -/
theorem import_fresh_id_collides_with_existing_file :
    runImport "plugin.x"
        [("/p.inlang/messages/v1" ++ "/" ++ getPathFromMessageId (humanIdHash "greeting" 0),
          "occupied")]
        [] [⟨"greeting", [], []⟩]
      = .ok ([(humanIdHash "greeting" 0,
          ⟨humanIdHash "greeting" 0, stdAlias "plugin.x" "greeting", []⟩)], 1)
    ∧ fsRead [("/p.inlang/messages/v1" ++ "/" ++ getPathFromMessageId (humanIdHash "greeting" 0),
          "occupied")]
        ("/p.inlang/messages/v1" ++ "/" ++ getPathFromMessageId (humanIdHash "greeting" 0))
      = some "occupied" := by decide

/-! ### Import fold lemmas, claims C3 and C7 -/

theorem foldImport_append (pluginId : String) (fs : Fs) (acc : Store × Nat)
    (L1 L2 : List Message) :
    foldImport pluginId fs acc (L1 ++ L2)
      = match foldImport pluginId fs acc L1 with
        | .error e => .error e
        | .ok acc2 => foldImport pluginId fs acc2 L2 := by
  induction L1 generalizing acc with
  | nil => simp [foldImport]
  | cons b rest ih =>
    rw [List.cons_append]
    rw [show foldImport pluginId fs acc (b :: (rest ++ L2))
        = match importStep pluginId fs acc b with
          | .error e => .error e
          | .ok acc2 => foldImport pluginId fs acc2 (rest ++ L2) from by rw [foldImport]]
    rw [show foldImport pluginId fs acc (b :: rest)
        = match importStep pluginId fs acc b with
          | .error e => .error e
          | .ok acc2 => foldImport pluginId fs acc2 rest from by rw [foldImport]]
    cases hstep : importStep pluginId fs acc b with
    | error e => simp
    | ok acc2 => simp [ih acc2]

theorem importStep_dup (pluginId : String) (fs : Fs) (S : Store) (cnt : Nat) (b : Message)
    (h : 2 ≤ (matchesFor S pluginId b.id).length) :
    importStep pluginId fs (S, cnt) b = .error ⟨dupAliasMsg, S⟩ := by
  cases hm : matchesFor S pluginId b.id with
  | nil => rw [hm] at h; simp at h
  | cons m1 rest =>
    cases rest with
    | nil => rw [hm] at h; simp at h
    | cons m2 rest2 => simp [importStep, hm]

/-- C3 (amended): when the import loop reaches an imported message whose id
is aliased by two or more store messages, reconciliation throws the
duplicate-alias internal consistency error, and no store mutation from
that imported message or any later one is applied — the store at the throw is
exactly the store after the earlier batch entries (whose mutations, contrary
to the claim as stated, do persist). -/
theorem import_duplicate_alias_fails (pluginId : String) (fs : Fs) (S0 Smid : Store)
    (cnt0 cntm : Nat) (L1 L2 : List Message) (b : Message)
    (hfold : foldImport pluginId fs (S0, cnt0) L1 = .ok (Smid, cntm))
    (hdup : 2 ≤ (matchesFor Smid pluginId b.id).length) :
    foldImport pluginId fs (S0, cnt0) (L1 ++ b :: L2) = .error ⟨dupAliasMsg, Smid⟩ := by
  rw [foldImport_append, hfold]
  show foldImport pluginId fs (Smid, cntm) (b :: L2) = .error ⟨dupAliasMsg, Smid⟩
  rw [show foldImport pluginId fs (Smid, cntm) (b :: L2)
      = match importStep pluginId fs (Smid, cntm) b with
        | .error e => .error e
        | .ok acc2 => foldImport pluginId fs acc2 L2 from by rw [foldImport]]
  rw [importStep_dup pluginId fs Smid cntm b hdup]

/-- C3 counterexample to the claim as stated: two store messages share the
alias "dup"; the batch [a, dup] fails with the duplicate-alias error, but
only after the creation for "a" has mutated the store — the store at the
throw differs from the pre-import store. -/
theorem import_duplicate_alias_counterexample :
    runImport "plugin.x" []
        [("m1", ⟨"m1", [("plugin.x", "dup")], []⟩), ("m2", ⟨"m2", [("plugin.x", "dup")], []⟩)]
        [⟨"a", [], []⟩, ⟨"dup", [], []⟩]
      = .error ⟨dupAliasMsg,
          [("m1", ⟨"m1", [("plugin.x", "dup")], []⟩), ("m2", ⟨"m2", [("plugin.x", "dup")], []⟩),
           (humanIdHash "a" 0, ⟨humanIdHash "a" 0, stdAlias "plugin.x" "a", []⟩)]⟩
    ∧ ([("m1", (⟨"m1", [("plugin.x", "dup")], []⟩ : Message)),
        ("m2", ⟨"m2", [("plugin.x", "dup")], []⟩),
        (humanIdHash "a" 0, ⟨humanIdHash "a" 0, stdAlias "plugin.x" "a", []⟩)] : Store)
      ≠ [("m1", ⟨"m1", [("plugin.x", "dup")], []⟩), ("m2", ⟨"m2", [("plugin.x", "dup")], []⟩)] := by
  decide

/-- C3 witness. -/
theorem import_duplicate_alias_fails_witness :
    foldImport "plugin.x" []
        ([("m1", ⟨"m1", [("plugin.x", "dup")], []⟩), ("m2", ⟨"m2", [("plugin.x", "dup")], []⟩)], 0)
        ([⟨"a", [], []⟩] ++ ⟨"dup", [], []⟩ :: [])
      = .error ⟨dupAliasMsg,
          [("m1", ⟨"m1", [("plugin.x", "dup")], []⟩), ("m2", ⟨"m2", [("plugin.x", "dup")], []⟩),
           (humanIdHash "a" 0, ⟨humanIdHash "a" 0, stdAlias "plugin.x" "a", []⟩)]⟩ :=
  import_duplicate_alias_fails "plugin.x" []
    [("m1", ⟨"m1", [("plugin.x", "dup")], []⟩), ("m2", ⟨"m2", [("plugin.x", "dup")], []⟩)]
    [("m1", ⟨"m1", [("plugin.x", "dup")], []⟩), ("m2", ⟨"m2", [("plugin.x", "dup")], []⟩),
     (humanIdHash "a" 0, ⟨humanIdHash "a" 0, stdAlias "plugin.x" "a", []⟩)]
    0 1 [⟨"a", [], []⟩] [] ⟨"dup", [], []⟩ (by decide) (by decide)

/-- C7 (amended): with exactly one alias match, the update is applied in
place — the existing message's id is kept and the store is touched only if
the encoded content differs — but the imported message's alias is rewritten
to the fixed pair that maps the importing module's id and
`library.inlang.paraglideJs` to the imported message's original id (which
agrees with the existing message's entry for the importing module, but
overwrites its other alias entries rather than pointing to them). -/
theorem importStep_one_match (pluginId : String) (fs : Fs) (S : Store) (cnt : Nat)
    (b cur : Message)
    (hone : matchesFor S pluginId b.id = [cur]) :
    (encodeMessage ⟨cur.id, stdAlias pluginId b.id, b.variants⟩ = encodeMessage cur →
      importStep pluginId fs (S, cnt) b = .ok (S, cnt))
    ∧ (encodeMessage ⟨cur.id, stdAlias pluginId b.id, b.variants⟩ ≠ encodeMessage cur →
      importStep pluginId fs (S, cnt) b
          = .ok (storeSet S cur.id ⟨cur.id, stdAlias pluginId b.id, b.variants⟩, cnt + 1)
      ∧ storeGet (storeSet S cur.id ⟨cur.id, stdAlias pluginId b.id, b.variants⟩) cur.id
          = some ⟨cur.id, stdAlias pluginId b.id, b.variants⟩) := by
  constructor
  · intro henc
    simp [importStep, hone, henc]
  · intro henc
    refine ⟨by simp [importStep, hone, henc], storeGet_storeSet_self S cur.id _⟩

/-- C7 counterexample to the claim as stated: the existing message carries
an additional alias entry (`library.inlang.paraglideJs` ↦ "other"); after
the in-place update the stored alias is the fixed pair derived from
the imported id, not the existing message's established aliases. -/
theorem importStep_one_match_counterexample :
    importStep "plugin.x" []
        ([("m1", ⟨"m1", [("plugin.x", "g"), (paraglideId, "other")], []⟩)], 0) ⟨"g", [], []⟩
      = .ok ([("m1", ⟨"m1", [("plugin.x", "g"), (paraglideId, "g")], []⟩)], 1)
    ∧ (storeGet [("m1", (⟨"m1", [("plugin.x", "g"), (paraglideId, "g")], []⟩ : Message))] "m1").map
        Message.aliases ≠ some [("plugin.x", "g"), (paraglideId, "other")] := by
  decide

/-- C7 witness: the skip case (identical encoding — no mutation) and the
update case applied at concrete inputs. -/
theorem importStep_one_match_witness :
    importStep "plugin.x" []
        ([("m1", ⟨"m1", stdAlias "plugin.x" "g", [⟨"en", "Hi"⟩]⟩)], 0) ⟨"g", [], [⟨"en", "Hi"⟩]⟩
      = .ok ([("m1", ⟨"m1", stdAlias "plugin.x" "g", [⟨"en", "Hi"⟩]⟩)], 0) :=
  (importStep_one_match "plugin.x" []
      [("m1", ⟨"m1", stdAlias "plugin.x" "g", [⟨"en", "Hi"⟩]⟩)] 0 ⟨"g", [], [⟨"en", "Hi"⟩]⟩
      ⟨"m1", stdAlias "plugin.x" "g", [⟨"en", "Hi"⟩]⟩ (by decide)).1 (by decide)

/-! ### Claim C5: import idempotence -/

/-- Store well-formedness: distinct keys, each keyed by its message's id.
The initial snapshot and all watcher/import mutations preserve it. -/
def wfStore (S : Store) : Prop :=
  (storeKeys S).Nodup ∧ ∀ p ∈ S, p.1 = p.2.id

/-- After a run of the reconciler, the imported message `b` has exactly one
store match, carrying the standard alias pair and `b`'s variants. -/
def settled (pluginId : String) (S : Store) (b : Message) : Prop :=
  ∃ mid, matchesFor S pluginId b.id = [⟨mid, stdAlias pluginId b.id, b.variants⟩]

theorem lookup_stdAlias (pluginId i : String) :
    List.lookup pluginId (stdAlias pluginId i) = some i := by
  simp [stdAlias, List.lookup]

theorem storeKeys_storeSet_mem (S : Store) (k : String) (v : Message) (k' : String) :
    k' ∈ storeKeys (storeSet S k v) ↔ k' ∈ storeKeys S ∨ k' = k := by
  induction S with
  | nil => simp [storeSet, storeKeys]
  | cons e rest ih =>
    obtain ⟨k1, v1⟩ := e
    by_cases hk : k1 = k
    · subst hk
      simp only [storeSet, if_pos rfl]
      simp [storeKeys]
      tauto
    · simp only [storeSet, if_neg hk]
      simp [storeKeys] at ih ⊢
      tauto

theorem wfStore_storeSet (S : Store) (k : String) (v : Message)
    (hwf : wfStore S) (hv : v.id = k) : wfStore (storeSet S k v) := by
  obtain ⟨hnd, hvals⟩ := hwf
  induction S with
  | nil =>
    exact ⟨by simp [storeSet, storeKeys], by simp [storeSet, hv]⟩
  | cons e rest ih =>
    obtain ⟨k1, v1⟩ := e
    have hnd_rest : (storeKeys rest).Nodup := by
      simp [storeKeys] at hnd
      exact hnd.2
    have hk1_not : k1 ∉ storeKeys rest := by
      simp [storeKeys] at hnd ⊢
      intro b hb
      exact hnd.1 b hb
    have hvals_rest : ∀ p ∈ rest, p.1 = p.2.id := fun p hp => hvals p (by simp [hp])
    by_cases hk : k1 = k
    · subst hk
      constructor
      · simp only [storeSet, if_pos rfl]
        simp [storeKeys] at hk1_not ⊢
        exact ⟨hk1_not, hnd_rest⟩
      · simp only [storeSet, if_pos rfl]
        intro p hp
        rcases List.mem_cons.mp hp with h1 | h1
        · rw [h1, hv]
        · exact hvals_rest p h1
    · obtain ⟨ihnd, ihvals⟩ := ih hnd_rest hvals_rest
      constructor
      · simp only [storeSet, if_neg hk]
        simp only [storeKeys, List.map_cons, List.nodup_cons]
        refine ⟨?_, ihnd⟩
        intro hmem
        rcases (storeKeys_storeSet_mem rest k v k1).mp hmem with h1 | h1
        · exact hk1_not h1
        · exact hk h1
      · simp only [storeSet, if_neg hk]
        intro p hp
        rcases List.mem_cons.mp hp with h1 | h1
        · rw [h1]
          exact hvals (k1, v1) (by simp)
        · exact ihvals p h1

theorem storeGetAll_storeSet_fresh (S : Store) (k : String) (v : Message)
    (hk : k ∉ storeKeys S) : storeGetAll (storeSet S k v) = storeGetAll S ++ [v] := by
  rw [storeSet_of_not_mem S k v hk]
  simp [storeGetAll]

theorem filter_getAll_storeSet_of_not (S : Store) (k : String) (v : Message)
    (p : Message → Bool) (hv : p v = false)
    (hall : ∀ q ∈ S, q.1 = k → p q.2 = false) :
    (storeGetAll (storeSet S k v)).filter p = (storeGetAll S).filter p := by
  induction S with
  | nil => simp [storeSet, storeGetAll, hv]
  | cons e rest ih =>
    obtain ⟨k1, v1⟩ := e
    by_cases hk : k1 = k
    · subst hk
      have hv1 : p v1 = false := hall (k1, v1) (by simp) rfl
      rw [show storeSet ((k1, v1) :: rest) k1 v = (k1, v) :: rest from by simp [storeSet]]
      simp only [storeGetAll, List.map_cons]
      rw [List.filter_cons, List.filter_cons]
      simp [hv, hv1]
    · rw [show storeSet ((k1, v1) :: rest) k v = (k1, v1) :: storeSet rest k v from by
        simp [storeSet, hk]]
      simp only [storeGetAll, List.map_cons]
      rw [List.filter_cons, List.filter_cons]
      have := ih (fun q hq hq1 => hall q (by simp [hq]) hq1)
      simp only [storeGetAll] at this
      by_cases hp1 : p v1
      · simp [hp1, this]
      · simp [hp1, this]

theorem filter_getAll_storeSet_of_match (S : Store) (v cur : Message)
    (p : Message → Bool) (hv : p v = true)
    (hnd : (storeKeys S).Nodup) (hvals : ∀ q ∈ S, q.1 = q.2.id)
    (hmatch : (storeGetAll S).filter p = [cur]) :
    (storeGetAll (storeSet S cur.id v)).filter p = [v] := by
  induction S with
  | nil => simp [storeGetAll] at hmatch
  | cons e rest ih =>
    obtain ⟨k1, v1⟩ := e
    have hk1 : k1 = v1.id := hvals (k1, v1) (by simp)
    have hnd_rest : (storeKeys rest).Nodup := by
      simp [storeKeys] at hnd
      exact hnd.2
    have hk1_not : k1 ∉ storeKeys rest := by
      simp [storeKeys] at hnd ⊢
      intro b hb
      exact hnd.1 b hb
    have hvals_rest : ∀ q ∈ rest, q.1 = q.2.id := fun q hq => hvals q (by simp [hq])
    simp only [storeGetAll, List.map_cons] at hmatch
    rw [List.filter_cons] at hmatch
    by_cases hp1 : p v1
    · rw [if_pos (by simp [hp1])] at hmatch
      simp only [List.cons.injEq] at hmatch
      obtain ⟨hcur, hrest_empty⟩ := hmatch
      subst hcur
      rw [show storeSet ((k1, v1) :: rest) v1.id v = (v1.id, v) :: rest from by
        simp [storeSet, hk1]]
      simp only [storeGetAll, List.map_cons]
      rw [List.filter_cons, if_pos (by simp [hv])]
      rw [hrest_empty]
    · rw [if_neg (by simp [hp1])] at hmatch
      -- cur sits in rest, so its key differs from k1
      have hcur_mem : cur ∈ storeGetAll rest := by
        have : cur ∈ (storeGetAll rest).filter p := by
          simp only [storeGetAll]
          rw [hmatch]
          simp
        exact List.mem_of_mem_filter this
      have hcurkey : cur.id ∈ storeKeys rest := by
        simp only [storeGetAll, List.mem_map] at hcur_mem
        obtain ⟨q, hq, hq2⟩ := hcur_mem
        have := hvals_rest q hq
        rw [← hq2, ← this]
        simp only [storeKeys, List.mem_map]
        exact ⟨q, hq, rfl⟩
      have hk1ne : k1 ≠ cur.id := by
        intro hh
        rw [hh] at hk1_not
        exact hk1_not hcurkey
      rw [show storeSet ((k1, v1) :: rest) cur.id v = (k1, v1) :: storeSet rest cur.id v from by
        simp [storeSet, hk1ne]]
      simp only [storeGetAll, List.map_cons]
      rw [List.filter_cons, if_neg (by simp [hp1])]
      exact ih hnd_rest hvals_rest hmatch

theorem probeFreshId_hash (fs : Fs) (originalId : String) :
    ∀ (fuel off : Nat) (c : String), probeFreshId fs originalId fuel off = some c →
      ∃ o, c = humanIdHash originalId o := by
  intro fuel
  induction fuel with
  | zero =>
    intro off c h
    simp [probeFreshId] at h
  | succ fuel ih =>
    intro off c h
    rw [probeFreshId] at h
    split at h
    · exact ih (off + 1) c h
    · exact ⟨off, (Option.some.inj h).symm⟩

theorem pred_std_self (pluginId i mid : String) (vs : List Variant) :
    (List.lookup pluginId (Message.mk mid (stdAlias pluginId i) vs).aliases == some i) = true := by
  simp [lookup_stdAlias]

theorem pred_std_ne (pluginId i x mid : String) (vs : List Variant) (h : i ≠ x) :
    (List.lookup pluginId (Message.mk mid (stdAlias pluginId i) vs).aliases == some x) = false := by
  simp [lookup_stdAlias, h]

/-- One successful import step (from a well-formed store, with the fresh
hashes unused as keys) leaves a well-formed store, settles the processed
message, changes no other message's matches, and only adds hash-derived
keys. -/
theorem importStep_establishes (pluginId : String) (fs : Fs) (S : Store) (cnt : Nat)
    (b : Message) (S' : Store) (cnt' : Nat)
    (hwf : wfStore S)
    (hfresh : ∀ off, humanIdHash b.id off ∉ storeKeys S)
    (hstep : importStep pluginId fs (S, cnt) b = .ok (S', cnt')) :
    wfStore S'
    ∧ settled pluginId S' b
    ∧ (∀ x, x ≠ b.id → matchesFor S' pluginId x = matchesFor S pluginId x)
    ∧ (∀ k, k ∈ storeKeys S' → k ∈ storeKeys S ∨ ∃ off, k = humanIdHash b.id off) := by
  obtain ⟨hnd, hvals⟩ := hwf
  cases hone : matchesFor S pluginId b.id with
  | nil =>
    -- zero matches: probe a fresh id and create
    rw [importStep] at hstep
    simp only [hone] at hstep
    cases hprobe : probeFreshId fs b.id (fs.length + 1) 0 with
    | none => rw [hprobe] at hstep; exact absurd hstep (by simp)
    | some newId =>
      rw [hprobe] at hstep
      simp only [Except.ok.injEq, Prod.mk.injEq] at hstep
      obtain ⟨hS', _⟩ := hstep
      obtain ⟨o, ho⟩ := probeFreshId_hash fs b.id (fs.length + 1) 0 newId hprobe
      have hnew_not : newId ∉ storeKeys S := by
        rw [ho]
        exact hfresh o
      refine ⟨?_, ?_, ?_, ?_⟩
      · rw [← hS']
        exact wfStore_storeSet S newId _ ⟨hnd, hvals⟩ rfl
      · refine ⟨newId, ?_⟩
        rw [← hS', matchesFor, storeGetAll_storeSet_fresh S newId _ hnew_not,
          List.filter_append]
        rw [show (storeGetAll S).filter
            (fun message => List.lookup pluginId message.aliases == some b.id) = [] from hone]
        simp [lookup_stdAlias]
      · intro x hx
        rw [← hS', matchesFor, matchesFor, storeGetAll_storeSet_fresh S newId _ hnew_not,
          List.filter_append]
        simp [pred_std_ne pluginId b.id x newId b.variants (Ne.symm hx)]
      · intro k hk
        rw [← hS'] at hk
        rcases (storeKeys_storeSet_mem S newId _ k).mp hk with h1 | h1
        · exact Or.inl h1
        · exact Or.inr ⟨o, by rw [h1, ho]⟩
  | cons cur rest =>
    cases rest with
    | cons m2 rest2 =>
      rw [importStep] at hstep
      simp only [hone] at hstep
      exact absurd hstep (by simp)
    | nil =>
      -- exactly one match
      have hpred_cur : (List.lookup pluginId cur.aliases == some b.id) = true := by
        have hmem : cur ∈ matchesFor S pluginId b.id := by rw [hone]; simp
        rw [matchesFor] at hmem
        have h0 := List.of_mem_filter hmem
        simpa using h0
      have hcur_pair : (cur.id, cur) ∈ S := by
        have hmem : cur ∈ storeGetAll S := by
          have hmem0 : cur ∈ matchesFor S pluginId b.id := by rw [hone]; simp
          rw [matchesFor] at hmem0
          exact List.mem_of_mem_filter hmem0
        simp only [storeGetAll, List.mem_map] at hmem
        obtain ⟨q, hq, hq2⟩ := hmem
        have := hvals q hq
        rw [← hq2, ← this]
        simpa using hq
      rw [importStep] at hstep
      simp only [hone] at hstep
      by_cases henc : encodeMessage ⟨cur.id, stdAlias pluginId b.id, b.variants⟩
          = encodeMessage cur
      · -- identical encoding: skip, no mutation
        rw [if_pos henc] at hstep
        simp only [Except.ok.injEq, Prod.mk.injEq] at hstep
        obtain ⟨hS', _⟩ := hstep
        have hcur_eq : (⟨cur.id, stdAlias pluginId b.id, b.variants⟩ : Message) = cur :=
          encodeMessage_injective henc
        refine ⟨?_, ?_, ?_, ?_⟩
        · rw [← hS']; exact ⟨hnd, hvals⟩
        · exact ⟨cur.id, by rw [← hS', hone, hcur_eq]⟩
        · intro x _; rw [← hS']
        · intro k hk; rw [← hS'] at hk; exact Or.inl hk
      · -- differing encoding: update in place
        rw [if_neg henc] at hstep
        simp only [Except.ok.injEq, Prod.mk.injEq] at hstep
        obtain ⟨hS', _⟩ := hstep
        have hall : ∀ q ∈ S, q.1 = cur.id → q.2 = cur := by
          have hnd2 : (List.map (fun p : String × Message => p.1) S).Nodup := by
            simpa [storeKeys] using hnd
          intro q hq hq1
          have : q = (cur.id, cur) := by
            apply List.inj_on_of_nodup_map hnd2 hq hcur_pair
            exact hq1
          rw [this]
        refine ⟨?_, ?_, ?_, ?_⟩
        · rw [← hS']
          exact wfStore_storeSet S cur.id _ ⟨hnd, hvals⟩ rfl
        · refine ⟨cur.id, ?_⟩
          rw [← hS', matchesFor]
          exact filter_getAll_storeSet_of_match S _ cur _ (pred_std_self pluginId b.id cur.id b.variants)
            hnd hvals hone
        · intro x hx
          rw [← hS', matchesFor, matchesFor]
          apply filter_getAll_storeSet_of_not
          · exact pred_std_ne pluginId b.id x cur.id b.variants (Ne.symm hx)
          · intro q hq hq1
            rw [hall q hq hq1]
            have hlk : List.lookup pluginId cur.aliases = some b.id := by
              simpa using hpred_cur
            simp [hlk, Ne.symm hx]
        · intro k hk
          rw [← hS'] at hk
          rcases (storeKeys_storeSet_mem S cur.id _ k).mp hk with h1 | h1
          · exact Or.inl h1
          · refine Or.inl ?_
            rw [h1]
            simp only [storeKeys, List.mem_map]
            exact ⟨(cur.id, cur), hcur_pair, rfl⟩

/-- The first reconciliation run settles every batch message (distinct ids,
hash-fresh against the starting store). -/
theorem foldImport_establishes (pluginId : String) (fs : Fs) :
    ∀ (L : List Message) (S : Store) (cnt : Nat) (S1 : Store) (cnt1 : Nat),
      wfStore S →
      (L.map Message.id).Nodup →
      (∀ b ∈ L, ∀ off, humanIdHash b.id off ∉ storeKeys S) →
      foldImport pluginId fs (S, cnt) L = .ok (S1, cnt1) →
      wfStore S1
      ∧ (∀ b ∈ L, settled pluginId S1 b)
      ∧ (∀ x, x ∉ L.map Message.id → matchesFor S1 pluginId x = matchesFor S pluginId x)
      ∧ (∀ k, k ∈ storeKeys S1 →
          k ∈ storeKeys S ∨ ∃ b ∈ L, ∃ off, k = humanIdHash b.id off) := by
  intro L
  induction L with
  | nil =>
    intro S cnt S1 cnt1 hwf _ _ hfold
    rw [foldImport] at hfold
    simp only [Except.ok.injEq, Prod.mk.injEq] at hfold
    obtain ⟨hS, _⟩ := hfold
    subst hS
    exact ⟨hwf, by simp, fun x _ => rfl, fun k hk => Or.inl hk⟩
  | cons b rest ih =>
    intro S cnt S1 cnt1 hwf hids hfresh hfold
    have hb_id_not : b.id ∉ rest.map Message.id := by
      simp only [List.map_cons, List.nodup_cons] at hids
      exact hids.1
    have hids_rest : (rest.map Message.id).Nodup := by
      simp only [List.map_cons, List.nodup_cons] at hids
      exact hids.2
    rw [show foldImport pluginId fs (S, cnt) (b :: rest)
        = match importStep pluginId fs (S, cnt) b with
          | .error e => .error e
          | .ok acc2 => foldImport pluginId fs acc2 rest from by rw [foldImport]] at hfold
    cases hstep : importStep pluginId fs (S, cnt) b with
    | error e => rw [hstep] at hfold; exact absurd hfold (by simp)
    | ok acc2 =>
      obtain ⟨S', cnt'⟩ := acc2
      rw [hstep] at hfold
      obtain ⟨hwf', hsettled', hinv', hkeys'⟩ :=
        importStep_establishes pluginId fs S cnt b S' cnt' hwf
          (hfresh b (by simp)) hstep
      have hfresh_rest : ∀ b' ∈ rest, ∀ off, humanIdHash b'.id off ∉ storeKeys S' := by
        intro b' hb' off hmem
        rcases hkeys' _ hmem with h1 | ⟨off2, h2⟩
        · exact hfresh b' (by simp [hb']) off h1
        · obtain ⟨hid_eq, _⟩ := humanIdHash_injective h2
          exact hb_id_not (by
            simp only [List.mem_map]
            exact ⟨b', hb', hid_eq⟩)
      obtain ⟨hwf1, hsettled1, hinv1, hkeys1⟩ :=
        ih S' cnt' S1 cnt1 hwf' hids_rest hfresh_rest hfold
      refine ⟨hwf1, ?_, ?_, ?_⟩
      · intro b0 hb0
        rcases List.mem_cons.mp hb0 with h1 | h1
        · subst h1
          obtain ⟨mid, hm⟩ := hsettled'
          exact ⟨mid, by rw [hinv1 b0.id hb_id_not, hm]⟩
        · exact hsettled1 b0 h1
      · intro x hx
        have hx_rest : x ∉ rest.map Message.id := by
          simp only [List.map_cons, List.mem_cons] at hx
          exact fun hh => hx (Or.inr hh)
        have hx_b : x ≠ b.id := by
          simp only [List.map_cons, List.mem_cons] at hx
          exact fun hh => hx (Or.inl hh)
        rw [hinv1 x hx_rest, hinv' x hx_b]
      · intro k hk
        rcases hkeys1 k hk with h1 | ⟨b0, hb0, off, hoff⟩
        · rcases hkeys' k h1 with h2 | ⟨off, hoff⟩
          · exact Or.inl h2
          · exact Or.inr ⟨b, by simp, off, hoff⟩
        · exact Or.inr ⟨b0, by simp [hb0], off, hoff⟩

/-- A reconciliation run over a store in which every batch message is
already settled performs no mutation at all. -/
theorem foldImport_skips (pluginId : String) (fs : Fs) :
    ∀ (L : List Message) (S : Store) (cnt : Nat),
      (∀ b ∈ L, settled pluginId S b) →
      foldImport pluginId fs (S, cnt) L = .ok (S, cnt) := by
  intro L
  induction L with
  | nil =>
    intro S cnt _
    rw [foldImport]
  | cons b rest ih =>
    intro S cnt hsettled
    obtain ⟨mid, hm⟩ := hsettled b (by simp)
    rw [show foldImport pluginId fs (S, cnt) (b :: rest)
        = match importStep pluginId fs (S, cnt) b with
          | .error e => .error e
          | .ok acc2 => foldImport pluginId fs acc2 rest from by rw [foldImport]]
    rw [show importStep pluginId fs (S, cnt) b = .ok (S, cnt) from by
      simp [importStep, hm]]
    exact ih S cnt (fun b0 hb0 => hsettled b0 (by simp [hb0]))

/-- C5 (amended): re-running the Import Reconciler with unchanged adapter
output against the store produced by a first successful run performs zero
additional store mutations — provided the adapter output has no two
messages with the same id, the starting store is well-formed, and the
fresh-id hashes do not collide with pre-existing store keys; every imported
message then finds exactly one alias match whose encoding equals its own,
so every update is skipped. -/
theorem runImport_idempotent (pluginId : String) (fs : Fs) (S0 S1 : Store)
    (cnt1 : Nat) (importedMessages : List Message)
    (hwf : wfStore S0)
    (hids : (importedMessages.map Message.id).Nodup)
    (hfresh : ∀ b ∈ importedMessages, ∀ off, humanIdHash b.id off ∉ storeKeys S0)
    (hrun : runImport pluginId fs S0 importedMessages = .ok (S1, cnt1)) :
    runImport pluginId fs S1 importedMessages = .ok (S1, 0) := by
  rw [runImport] at hrun ⊢
  have hperm : List.Perm (sortById importedMessages) importedMessages :=
    List.perm_insertionSort _ _
  have hids' : ((sortById importedMessages).map Message.id).Nodup :=
    ((hperm.map Message.id).nodup_iff).mpr hids
  have hfresh' : ∀ b ∈ sortById importedMessages, ∀ off,
      humanIdHash b.id off ∉ storeKeys S0 :=
    fun b hb => hfresh b (hperm.mem_iff.mp hb)
  obtain ⟨_, hsettled, _, _⟩ :=
    foldImport_establishes pluginId fs (sortById importedMessages) S0 0 S1 cnt1
      hwf hids' hfresh' hrun
  exact foldImport_skips pluginId fs (sortById importedMessages) S1 0 hsettled

/-- Fresh hashes never equal a key that does not start with the hash
discriminator. -/
theorem humanIdHash_ne_short (i : String) (off : Nat) (k : String)
    (hk : k.data.head? ≠ some 'h') : humanIdHash i off ≠ k := by
  intro h
  rw [← h] at hk
  exact hk (humanIdHash_data_head i off)

/-- C5 counterexample to the claim as stated: an adapter output containing
two messages with the same id "d" (differing content) makes the second run
perform two further update mutations (count 2, not 0), even though the
adapter output and resulting store are unchanged. -/
theorem runImport_idempotent_counterexample :
    runImport "plugin.x" [] []
        [⟨"d", [], [⟨"en", "one"⟩]⟩, ⟨"d", [], [⟨"en", "two"⟩]⟩]
      = .ok ([(humanIdHash "d" 0,
          ⟨humanIdHash "d" 0, stdAlias "plugin.x" "d", [⟨"en", "two"⟩]⟩)], 2)
    ∧ runImport "plugin.x" []
        [(humanIdHash "d" 0, ⟨humanIdHash "d" 0, stdAlias "plugin.x" "d", [⟨"en", "two"⟩]⟩)]
        [⟨"d", [], [⟨"en", "one"⟩]⟩, ⟨"d", [], [⟨"en", "two"⟩]⟩]
      = .ok ([(humanIdHash "d" 0,
          ⟨humanIdHash "d" 0, stdAlias "plugin.x" "d", [⟨"en", "two"⟩]⟩)], 2) := by
  decide

/-- C5 witness. -/
theorem runImport_idempotent_witness :
    runImport "plugin.x" [] [("m1", ⟨"m1", stdAlias "plugin.x" "g", [⟨"en", "Hi"⟩]⟩)]
        [⟨"g", [], [⟨"en", "Hi"⟩]⟩]
      = .ok ([("m1", ⟨"m1", stdAlias "plugin.x" "g", [⟨"en", "Hi"⟩]⟩)], 0) := by
  refine runImport_idempotent "plugin.x" []
    [("m1", ⟨"m1", stdAlias "plugin.x" "g", [⟨"en", "Hi"⟩]⟩)]
    [("m1", ⟨"m1", stdAlias "plugin.x" "g", [⟨"en", "Hi"⟩]⟩)] 0
    [⟨"g", [], [⟨"en", "Hi"⟩]⟩] ⟨by decide, by decide⟩ (by decide) ?_ (by decide)
  intro b hb off hmem
  have hb' : b = ⟨"g", [], [⟨"en", "Hi"⟩]⟩ := by simpa using hb
  have hkey : humanIdHash b.id off = "m1" := by
    simpa [storeKeys] using hmem
  exact humanIdHash_ne_short b.id off "m1" (by decide) hkey
